import Mathlib

/-!
Verification development for the Gemini task-manager repository.

The repository contains two versions of the collaborator module that talks to
the Gemini text-generation service: the original `src/prd_parser.js` and an
enhanced version (with logging, timestamped backups, entry validation for
revisions, and a line-splitting fallback for subtask expansion).  Both are
embedded below, together with a model of the JavaScript values the functions
manipulate and of the filesystem / network effects they perform.

The task-graph engine itself (next-task selection, revision merge) is not part
of the source tree that was provided; it is modelled from the specification in
the `Engine` namespace.
-/

/-- Model of a JavaScript/JSON value as produced by `JSON.parse`.
Numbers are modelled as exact rationals (JSON number literals denote decimal
fractions; IEEE-754 rounding of extreme literals is not modelled). -/
inductive JsValue : Type where
  | null : JsValue
  | bool : Bool → JsValue
  | num : ℚ → JsValue
  | str : String → JsValue
  | arr : List JsValue → JsValue
  | obj : List (String × JsValue) → JsValue

/-- JavaScript truthiness of a value ( `undefined` is represented separately
as `Option.none` wherever property lookup can miss). -/
def truthy : JsValue → Bool
  | .null => false
  | .bool b => b
  | .num q => decide (q ≠ 0)
  | .str s => decide (s ≠ "")
  | .arr _ => true
  | .obj _ => true

/-- Truthiness of a possibly-`undefined` value: `undefined` is falsy. -/
def truthyOpt : Option JsValue → Bool
  | none => false
  | some v => truthy v

/-- Lookup of an object field.  `JSON.parse` keeps the last occurrence of a
duplicated key, and later property assignment wins in JS, so the last binding
is returned. -/
def lookupField (fs : List (String × JsValue)) (k : String) : Option JsValue :=
  (fs.reverse.find? (fun p => p.1 = k)).map (fun p => p.2)

/-- Property access `v.k`.  Primitives and arrays have none of the properties
the code looks up, so they yield `undefined`; access on `null` throws in JS,
which every call site below catches, so it is folded into `none` as well. -/
def jsGet (v : JsValue) (k : String) : Option JsValue :=
  match v with
  | .obj fs => lookupField fs k
  | _ => none

/-- Index access `v[0]` as used on `candidates` and `parts`: arrays yield
their first element, objects a `"0"` property, strings their first character
(as a one-character string); everything else yields `undefined`. -/
def index0 : JsValue → Option JsValue
  | .arr l => l.head?
  | .obj fs => lookupField fs "0"
  | .str s => s.data.head?.map (fun c => .str (String.singleton c))
  | _ => none

/- ### Character-level string utilities

The JS cleanup code works on strings via regexes; it is modelled here on
`List Char` so that its behaviour can be reasoned about symbolically. -/

/-- The backtick character. -/
def bt : Char := Char.ofNat 96

/-- The newline character. -/
def nlc : Char := Char.ofNat 10

/-- A ``` code-fence marker. -/
def fenceM : List Char := [bt, bt, bt]

/-- The characters of "```json". -/
def fenceJson : List Char := bt :: bt :: bt :: 'j' :: 's' :: 'o' :: 'n' :: []

/-- Whitespace as trimmed/ skipped by the modelled code (space, tab, newline,
carriage return; the rarer Unicode whitespace of JS `trim` is not modelled). -/
def isWs (c : Char) : Bool :=
  c = ' ' || c = nlc || c = Char.ofNat 9 || c = Char.ofNat 13

/-- Model of JavaScript `String.prototype.trim`: drop whitespace from both
ends. -/
def charTrim (l : List Char) : List Char :=
  ((l.dropWhile isWs).reverse.dropWhile isWs).reverse

/-- String wrapper around `charTrim`. -/
def jsTrimStr (s : String) : String := String.mk (charTrim s.data)

/-- Split a character list at the first occurrence of `pat`: returns the
characters before the occurrence and the characters after it. -/
def splitAtSub (pat : List Char) : List Char → Option (List Char × List Char)
  | [] => if pat.isEmpty then some ([], []) else none
  | c :: cs =>
      if pat.isPrefixOf (c :: cs) then some ([], (c :: cs).drop pat.length)
      else (splitAtSub pat cs).map (fun p => (c :: p.1, p.2))

/-- Substring test, as JS `String.prototype.includes`. -/
def containsSub (pat l : List Char) : Bool := (splitAtSub pat l).isSome

/-- Model of `s.replace(/lit/g, '')` for a literal, non-empty pattern
`p :: ps`: delete every (leftmost, non-overlapping) occurrence.  `fuel` bounds
the number of scanning steps; every step consumes at least one character, so
the length of the input is always enough fuel. -/
def replaceSub : Nat → Char → List Char → List Char → List Char
  | 0, _, _, l => l
  | _ + 1, _, _, [] => []
  | fuel + 1, p, ps, c :: cs =>
      if (p :: ps).isPrefixOf (c :: cs) then replaceSub fuel p ps (cs.drop ps.length)
      else c :: replaceSub fuel p ps cs

/-- One attempted match of the enhanced cleanup regex
`/```(?:json)?\n([\s\S]*?)\n```/` at the head of the input: on success returns
the lazily-captured body and the characters after the closing fence. -/
def matchFenceAt (l : List Char) : Option (List Char × List Char) :=
  if fenceM.isPrefixOf l then
    let r := l.drop 3
    -- `(?:json)?` is greedy but backtracks: "json" is consumed only when it
    -- is followed by the mandatory newline.
    let r2 : Option (List Char) :=
      if ('j' :: 's' :: 'o' :: 'n' :: nlc :: []).isPrefixOf r then some (r.drop 5)
      else if (nlc :: []).isPrefixOf r then some (r.drop 1)
      else none
    match r2 with
    | none => none
    | some body => splitAtSub (nlc :: fenceM) body
  else none

/-- Global replacement of the fenced-block regex by its captured group, as in
the enhanced cleanup.  `fuel` bounds the number of scanning steps; every step
consumes at least one character, so `l.length` is always enough fuel. -/
def scanFence : Nat → List Char → List Char
  | 0, l => l
  | _ + 1, [] => []
  | fuel + 1, c :: cs =>
      match matchFenceAt (c :: cs) with
      | some (cap, rest) => cap ++ scanFence fuel rest
      | none => c :: scanFence fuel cs

/-- Enhanced response cleanup:
`text.replace(/```(?:json)?\n([\s\S]*?)\n```/g, '$1').trim()`. -/
def cleanEnhanced (s : String) : String :=
  String.mk (charTrim (scanFence s.data.length s.data))

/-- Original response cleanup:
`text.replace(/```json/g, '').replace(/```/g, '').trim()`. -/
def cleanOriginal (s : String) : String :=
  let l1 := replaceSub s.data.length bt (bt :: bt :: 'j' :: 's' :: 'o' :: 'n' :: []) s.data
  String.mk (charTrim (replaceSub l1.length bt [bt, bt] l1))

/-- Split at newlines, as JS `String.prototype.split('\n')`. -/
def splitNl : List Char → List (List Char)
  | [] => [[]]
  | c :: cs =>
      if c = nlc then [] :: splitNl cs
      else match splitNl cs with
        | [] => [[c]]
        | l :: ls => (c :: l) :: ls

/- ### A model of `JSON.parse`

The collaborator functions hand the cleaned response text to `JSON.parse`.
The parser below follows the JSON grammar (RFC 8259): values, objects with
string keys, arrays, strings with escapes, numbers with optional fraction and
exponent, `true`/`false`/`null`, and insignificant whitespace.  Surrogate
pairs in `\u` escapes are combined; a lone surrogate (not representable as a
Lean `Char`) degrades to the default character. -/

/-- Skip insignificant JSON whitespace. -/
def skipWs : List Char → List Char
  | [] => []
  | c :: cs => if isWs c then skipWs cs else c :: cs

/-- Value of a hexadecimal digit. -/
def hexVal (c : Char) : Option Nat :=
  if '0' ≤ c ∧ c ≤ '9' then some (c.toNat - 48)
  else if 'a' ≤ c ∧ c ≤ 'f' then some (c.toNat - 87)
  else if 'A' ≤ c ∧ c ≤ 'F' then some (c.toNat - 70)
  else none

/-- Parse exactly four hex digits. -/
def parseHex4 : List Char → Option (Nat × List Char)
  | a :: b :: c :: d :: rest =>
      match hexVal a, hexVal b, hexVal c, hexVal d with
      | some x, some y, some z, some w => some (((x * 16 + y) * 16 + z) * 16 + w, rest)
      | _, _, _, _ => none
  | _ => none

/-- The double-quote character. -/
def dq : Char := Char.ofNat 34

/-- Parse the body of a JSON string after the opening quote, returning the
decoded characters and the input after the closing quote. -/
def parseStrBody : Nat → List Char → Option (List Char × List Char)
  | 0, _ => none
  | _ + 1, [] => none
  | fuel + 1, c :: cs =>
      if c = dq then some ([], cs)
      else if c = '\\' then
        match cs with
        | [] => none
        | e :: cs2 =>
            if e = 'u' then
              match parseHex4 cs2 with
              | none => none
              | some (n, cs3) =>
                  if 0xD800 ≤ n ∧ n ≤ 0xDBFF then
                    -- High surrogate: try to combine with a following \uDC00-\uDFFF.
                    match cs3 with
                    | '\\' :: 'u' :: cs4 =>
                        match parseHex4 cs4 with
                        | some (m, cs5) =>
                            if 0xDC00 ≤ m ∧ m ≤ 0xDFFF then
                              (parseStrBody fuel cs5).map (fun p =>
                                (Char.ofNat (0x10000 + (n - 0xD800) * 0x400 + (m - 0xDC00)) :: p.1, p.2))
                            else (parseStrBody fuel cs3).map (fun p => (Char.ofNat n :: p.1, p.2))
                        | none => (parseStrBody fuel cs3).map (fun p => (Char.ofNat n :: p.1, p.2))
                    | _ => (parseStrBody fuel cs3).map (fun p => (Char.ofNat n :: p.1, p.2))
                  else (parseStrBody fuel cs3).map (fun p => (Char.ofNat n :: p.1, p.2))
            else
              let dec : Option Char :=
                if e = dq then some dq
                else if e = '\\' then some '\\'
                else if e = '/' then some '/'
                else if e = 'b' then some (Char.ofNat 8)
                else if e = 'f' then some (Char.ofNat 12)
                else if e = 'n' then some nlc
                else if e = 'r' then some (Char.ofNat 13)
                else if e = 't' then some (Char.ofNat 9)
                else none
              match dec with
              | none => none
              | some d => (parseStrBody fuel cs2).map (fun p => (d :: p.1, p.2))
      else if c.toNat < 32 then none  -- unescaped control characters are rejected
      else (parseStrBody fuel cs).map (fun p => (c :: p.1, p.2))

/-- Is `c` an ASCII decimal digit? -/
def isDigit (c : Char) : Bool := '0' ≤ c && c ≤ '9'

/-- Numeric value of a digit run. -/
def digitsVal (l : List Char) : Nat :=
  l.foldl (fun acc c => acc * 10 + (c.toNat - 48)) 0

/-- Parse one or more decimal digits. -/
def parseDigits (l : List Char) : Option (List Char × List Char) :=
  match l.takeWhile isDigit with
  | [] => none
  | ds => some (ds, l.dropWhile isDigit)

/-- Parse a JSON number (sign, integer part without leading zeros, optional
fraction, optional exponent) into an exact rational. -/
def parseNumber (l : List Char) : Option (ℚ × List Char) :=
  let (neg, l1) : Bool × List Char :=
    match l with
    | '-' :: rest => (true, rest)
    | _ => (false, l)
  let intPart : Option (List Char × List Char) :=
    match l1 with
    | '0' :: rest =>
        match rest with
        | d :: _ => if isDigit d then none else some (['0'], rest)
        | [] => some (['0'], [])
    | d :: _ => if isDigit d then parseDigits l1 else none
    | [] => none
  match intPart with
  | none => none
  | some (ids, l2) =>
      let fracPart : Option (List Char × List Char) :=
        match l2 with
        | '.' :: rest =>
            match parseDigits rest with
            | none => none
            | some (fs, l3) => some (fs, l3)
        | _ => some ([], l2)
      match fracPart with
      | none => none
      | some (fds, l3) =>
          let expPart : Option (Bool × List Char × List Char) :=
            match l3 with
            | e :: rest =>
                if e = 'e' ∨ e = 'E' then
                  match rest with
                  | '+' :: rest2 => (parseDigits rest2).map (fun p => (false, p.1, p.2))
                  | '-' :: rest2 => (parseDigits rest2).map (fun p => (true, p.1, p.2))
                  | _ => (parseDigits rest).map (fun p => (false, p.1, p.2))
                else some (false, [], l3)
            | [] => some (false, [], [])
          match expPart with
          | none => none
          | some (eneg, eds, l4) =>
              let mantissa : ℚ := (digitsVal (ids ++ fds) : ℚ) / ((10 : ℚ) ^ fds.length)
              let scaled : ℚ :=
                if eds.isEmpty then mantissa
                else if eneg then mantissa / ((10 : ℚ) ^ digitsVal eds)
                else mantissa * ((10 : ℚ) ^ digitsVal eds)
              some ((if neg then -scaled else scaled), l4)

/-- The `[` character. -/
def lbk : Char := Char.ofNat 91
/-- The `]` character. -/
def rbk : Char := Char.ofNat 93
/-- The `\x7b` character. -/
def lbr : Char := Char.ofNat 123
/-- The `\x7d` character. -/
def rbr : Char := Char.ofNat 125

mutual

/-- Parse a JSON value, returning it and the remaining input. -/
def parseVal : Nat → List Char → Option (JsValue × List Char)
  | 0, _ => none
  | fuel + 1, cs =>
      match skipWs cs with
      | [] => none
      | c :: rest =>
          if c = dq then
            (parseStrBody (rest.length + 1) rest).map (fun p => (.str (String.mk p.1), p.2))
          else if c = 't' then
            if ['r', 'u', 'e'].isPrefixOf rest then some (.bool true, rest.drop 3) else none
          else if c = 'f' then
            if ['a', 'l', 's', 'e'].isPrefixOf rest then some (.bool false, rest.drop 4) else none
          else if c = 'n' then
            if ['u', 'l', 'l'].isPrefixOf rest then some (.null, rest.drop 3) else none
          else if c = lbk then
            match skipWs rest with
            | c2 :: rest2 =>
                if c2 = rbk then some (.arr [], rest2)
                else (parseItems fuel (c2 :: rest2)).map (fun p => (.arr p.1, p.2))
            | [] => none
          else if c = lbr then
            match skipWs rest with
            | c2 :: rest2 =>
                if c2 = rbr then some (.obj [], rest2)
                else (parseFields fuel (c2 :: rest2)).map (fun p => (.obj p.1, p.2))
            | [] => none
          else (parseNumber (c :: rest)).map (fun p => (.num p.1, p.2))

/-- Parse the comma-separated items of a non-empty array, up to and including
the closing bracket. -/
def parseItems : Nat → List Char → Option (List JsValue × List Char)
  | 0, _ => none
  | fuel + 1, cs =>
      match parseVal fuel cs with
      | none => none
      | some (v, r) =>
          match skipWs r with
          | c :: r2 =>
              if c = ',' then (parseItems fuel r2).map (fun p => (v :: p.1, p.2))
              else if c = rbk then some ([v], r2)
              else none
          | [] => none

/-- Parse the comma-separated `"key": value` fields of a non-empty object, up
to and including the closing brace. -/
def parseFields : Nat → List Char → Option (List (String × JsValue) × List Char)
  | 0, _ => none
  | fuel + 1, cs =>
      match skipWs cs with
      | c :: rest =>
          if c = dq then
            match parseStrBody (rest.length + 1) rest with
            | none => none
            | some (k, r) =>
                match skipWs r with
                | c2 :: r2 =>
                    if c2 = ':' then
                      match parseVal fuel r2 with
                      | none => none
                      | some (v, r3) =>
                          match skipWs r3 with
                          | c3 :: r4 =>
                              if c3 = ',' then
                                (parseFields fuel r4).map (fun p => ((String.mk k, v) :: p.1, p.2))
                              else if c3 = rbr then some ([(String.mk k, v)], r4)
                              else none
                          | [] => none
                    else none
                | [] => none
          else none
      | [] => none

end

/-- Model of `JSON.parse`: parse a complete value, allowing surrounding
whitespace only.  The fuel `2 * length + 2` is always sufficient: every unit
of fuel spent on recursion corresponds to at least one consumed character of
nesting or separator. -/
def jsonParse (s : String) : Option JsValue :=
  match parseVal (2 * s.data.length + 2) s.data with
  | some (v, rest) => if (skipWs rest).isEmpty then some v else none
  | none => none

/- ### A model of `JSON.stringify(v, null, 2)` -/

/-- Escape one character for a JSON string literal, as `JSON.stringify`. -/
def escapeChar (c : Char) : String :=
  if c = dq then String.mk ['\\', dq]
  else if c = '\\' then "\\\\"
  else if c = nlc then "\\n"
  else if c = Char.ofNat 9 then "\\t"
  else if c = Char.ofNat 13 then "\\r"
  else if c = Char.ofNat 8 then "\\b"
  else if c = Char.ofNat 12 then "\\f"
  else if c.toNat < 32 then
    "\\u00" ++ String.mk [(Nat.digitChar (c.toNat / 16)), (Nat.digitChar (c.toNat % 16))]
  else String.singleton c

/-- A quoted, escaped JSON string literal. -/
def quoteStr (s : String) : String :=
  String.mk [dq] ++ String.join (s.data.map escapeChar) ++ String.mk [dq]

/-- Smallest `k ≤ 63` with `d ∣ 10^k` (denominators of parsed JSON numbers
always divide a power of ten). -/
def decExpOf (d : Nat) : Nat :=
  (((List.range 64).find? (fun k => 10 ^ k % d = 0)).getD 0)

/-- Decimal rendering of a rational whose denominator divides a power of ten,
as JavaScript prints such numbers (exponent notation for extreme magnitudes is
not modelled). -/
def numToString (q : ℚ) : String :=
  if q.den = 1 then toString q.num
  else
    let k := decExpOf q.den
    let s := toString ((q.num.natAbs * 10 ^ k) / q.den)
    let s2 := if s.length ≤ k then String.mk (List.replicate (k + 1 - s.length) '0') ++ s else s
    let m := s2.length - k
    (if q.num < 0 then "-" else "") ++ s2.take m ++ "." ++ s2.drop m

/-- `n` spaces. -/
def indentStr (n : Nat) : String := String.mk (List.replicate n ' ')

mutual

/-- `JSON.stringify(v, null, 2)` at nesting level `lvl`. -/
def strJ : Nat → JsValue → String
  | _, .null => "null"
  | _, .bool b => if b then "true" else "false"
  | _, .num q => numToString q
  | _, .str s => quoteStr s
  | _, .arr [] => "[]"
  | lvl, .arr (x :: xs) =>
      String.mk [lbk, nlc] ++
        String.intercalate (String.mk [',', nlc]) (strJL (lvl + 1) (x :: xs)) ++
        String.mk [nlc] ++ indentStr (lvl * 2) ++ String.mk [rbk]
  | _, .obj [] => String.mk [lbr, rbr]
  | lvl, .obj (f :: fs) =>
      String.mk [lbr, nlc] ++
        String.intercalate (String.mk [',', nlc]) (strJO (lvl + 1) (f :: fs)) ++
        String.mk [nlc] ++ indentStr (lvl * 2) ++ String.mk [rbr]

/-- The serialized, indented elements of an array. -/
def strJL : Nat → List JsValue → List String
  | _, [] => []
  | lvl, v :: vs => (indentStr (lvl * 2) ++ strJ lvl v) :: strJL lvl vs

/-- The serialized, indented `"key": value` fields of an object. -/
def strJO : Nat → List (String × JsValue) → List String
  | _, [] => []
  | lvl, (k, v) :: fs =>
      (indentStr (lvl * 2) ++ quoteStr k ++ ": " ++ strJ lvl v) :: strJO lvl fs

end

/-- Top-level `JSON.stringify(v, null, 2)`. -/
def stringify2 (v : JsValue) : String := strJ 0 v

/- ### The collaborator functions

Each function interacts with the environment through `readFileSync`, one
`axios.post`, and `writeFileSync`.  The embedding takes the outcomes of the
fallible interactions as inputs (the file content, if readable; the API
outcome) and returns, besides the JS return value, the list of I/O effects
the call performs, in order.  A JS return value of `null` is `none`.  Every
`throw` in the source is enclosed in a `try` whose handler returns `null` (or
enters the expansion fallback), so the embedding is total: no exception
escapes. `writeFileSync` is assumed to succeed. -/

/-- Outcome of the `axios.post` call: a transport/API error (the promise
rejects) or a resolved response with the given `response.data`. -/
inductive ApiOutcome : Type where
  | err : ApiOutcome
  | ok : JsValue → ApiOutcome

/-- An observable I/O effect of a collaborator function. -/
inductive Eff : Type where
  | readFile : String → Eff
  | apiPost : Eff
  | writeFile : String → String → Eff
deriving DecidableEq

/-- Truthiness of `process.env.GEMINI_API_KEY`: absent or empty is falsy. -/
def jsTruthyStr : Option String → Bool
  | none => false
  | some s => decide (s ≠ "")

/-- `new Date().toISOString().replace(/[:.]/g, '-')` applied to the timestamp
string supplied by the environment. -/
def sanitizeTs (ts : String) : String :=
  String.mk (ts.data.map (fun c => if c = ':' ∨ c = '.' then '-' else c))

/-- Navigation of
`response.data && response.data.candidates && response.data.candidates[0].content
&& response.data.candidates[0].content.parts` followed by
`parts[0].text`.  A missing or falsy link either fails the condition or makes
the subsequent property access throw inside the enclosing `try`; both paths
return `null` with no further effects, so they are folded into `none`.  The
result must be a string, since `.replace` is called on it next. -/
def extractText (data : JsValue) : Option String :=
  if !truthy data then none
  else
    match jsGet data "candidates" with
    | none => none
    | some cands =>
        if !truthy cands then none
        else
          match index0 cands with
          | none => none
          | some c0 =>
              match jsGet c0 "content" with
              | none => none
              | some content =>
                  if !truthy content then none
                  else
                    match jsGet content "parts" with
                    | none => none
                    | some parts =>
                        if !truthy parts then none
                        else
                          match index0 parts with
                          | none => none
                          | some p0 =>
                              match jsGet p0 "text" with
                              | some (.str s) => some s
                              | _ => none

mutual

/-- JavaScript string coercion of a value, as in template literals. -/
def jsDisplayV : JsValue → String
  | .null => "null"
  | .bool b => if b then "true" else "false"
  | .num q => numToString q
  | .str s => s
  | .arr l => String.intercalate "," (jsDisplayL l)
  | .obj _ => "[object Object]"

/-- String coercion of array elements. -/
def jsDisplayL : List JsValue → List String
  | [] => []
  | v :: vs => jsDisplayV v :: jsDisplayL vs

end

/-- JavaScript string coercion of a possibly-`undefined` value, as used in
template literals for backup file names. -/
def jsDisplay : Option JsValue → String
  | none => "undefined"
  | some v => jsDisplayV v

/-- The `title` value of a parsed subtask object, as `sub.title`
(`undefined`, which cannot occur for entries that passed the check, is
rendered as `null`). -/
def titleVal (v : JsValue) : JsValue := (jsGet v "title").getD .null

/-- The per-entry check `typeof sub === 'object' && sub.title` of the strict
expansion parse.  `typeof` is `'object'` for objects, arrays and `null`, but
`null.title` throws (caught by the enclosing handler, failing the strict
parse) and JSON arrays have no `title` property, so at the level of JSON
values the check passes exactly for objects with a truthy `title`. -/
def validSubtaskEntry : JsValue → Bool
  | .obj fs => truthyOpt (lookupField fs "title")
  | _ => false

/-- The per-entry check
`typeof task === 'object' && task.id !== undefined && typeof task.title === 'string'`
of the enhanced revision parse (same `typeof`/`null` considerations as for
`validSubtaskEntry`; a parsed JSON value is never `undefined`, so the `id`
check is field presence). -/
def validRevEntry : JsValue → Bool
  | .obj fs =>
      (lookupField fs "id").isSome &&
        (match lookupField fs "title" with
         | some (.str _) => true
         | _ => false)
  | _ => false

/-- The strict expansion parse shared by both versions: `JSON.parse`, then
`Array.isArray(parsed) && parsed.every(sub => typeof sub === 'object' && sub.title)`. -/
def strictSubtasks (cleaned : String) : Option (List JsValue) :=
  match jsonParse cleaned with
  | some (.arr xs) => if xs.all validSubtaskEntry then some xs else none
  | _ => none

/-- The enhanced revision parse: `JSON.parse`, `Array.isArray`, then the
per-entry `id`/`title` validation. -/
def strictRevTasks (cleaned : String) : Option (List JsValue) :=
  match jsonParse cleaned with
  | some (.arr xs) => if xs.all validRevEntry then some xs else none
  | _ => none

/-- The fallback line-splitting of the enhanced expansion:
`jsonResponse.split('\n').map(l => l.trim()).filter(l => l && !l.includes('```'))`. -/
def fallbackLines (cleaned : String) : List String :=
  ((splitNl cleaned.data).map (fun l => String.mk (charTrim l))).filter
    (fun t => t ≠ "" && !containsSub fenceM t.data)

/-- `lines.join('\n')`. -/
def joinNl (lines : List String) : String := String.intercalate (String.mk [nlc]) lines

namespace Enhanced

/-- The enhanced `parsePrdWithGemini(prdFilePath)`.  `fileContent` is the
outcome of `readFileSync` (`none` = unreadable), `api` the outcome of the
POST, `ts` the ISO timestamp the call would observe. -/
def parsePrdWithGemini (apiKey : Option String) (prdFilePath : String)
    (fileContent : Option String) (api : ApiOutcome) (ts : String) :
    Option (List JsValue) × List Eff :=
  if !jsTruthyStr apiKey then (none, [])
  else
    match fileContent with
    | none => (none, [.readFile prdFilePath])
    | some _ =>
        match api with
        | .err => (none, [.readFile prdFilePath, .apiPost])
        | .ok data =>
            match extractText data with
            | none => (none, [.readFile prdFilePath, .apiPost])
            | some text =>
                match jsonParse (cleanEnhanced text) with
                | some (.arr tasks) =>
                    let backupPath := prdFilePath ++ ".tasks." ++ sanitizeTs ts ++ ".json"
                    (some tasks,
                      [.readFile prdFilePath, .apiPost,
                       .writeFile backupPath (stringify2 (.arr tasks))])
                | _ => (none, [.readFile prdFilePath, .apiPost])

/-- The enhanced `expandTaskWithGemini(parentTask)`: strict parse, then
line-splitting fallback; both success paths write a backup first. -/
def expandTaskWithGemini (apiKey : Option String) (parentTask : JsValue)
    (api : ApiOutcome) (ts : String) : Option (List JsValue) × List Eff :=
  if !jsTruthyStr apiKey then (none, [])
  else
    match api with
    | .err => (none, [.apiPost])
    | .ok data =>
        match extractText data with
        | none => (none, [.apiPost])
        | some text =>
            let cleaned := cleanEnhanced text
            match strictSubtasks cleaned with
            | some subs =>
                let backupPath :=
                  "subtasks_" ++ jsDisplay (jsGet parentTask "id") ++ "_" ++
                    sanitizeTs ts ++ ".json"
                (some (subs.map titleVal),
                  [.apiPost, .writeFile backupPath (stringify2 (.arr subs))])
            | none =>
                let lines := fallbackLines cleaned
                if lines.isEmpty then (none, [.apiPost])
                else
                  let backupPath :=
                    "subtasks_fallback_" ++ jsDisplay (jsGet parentTask "id") ++ "_" ++
                      sanitizeTs ts ++ ".txt"
                  (some (lines.map .str), [.apiPost, .writeFile backupPath (joinNl lines)])

/-- The enhanced `reviseTasksWithGemini(userPrompt, pastTasks, futureTasks)`.
The prompt built from the arguments does not influence the modelled outcome,
which is determined by the API outcome supplied by the environment. -/
def reviseTasksWithGemini (apiKey : Option String) (_userPrompt : String)
    (_pastTasks _futureTasks : List JsValue) (api : ApiOutcome) (ts : String) :
    Option (List JsValue) × List Eff :=
  if !jsTruthyStr apiKey then (none, [])
  else
    match api with
    | .err => (none, [.apiPost])
    | .ok data =>
        match extractText data with
        | none => (none, [.apiPost])
        | some text =>
            match strictRevTasks (cleanEnhanced text) with
            | some tasks =>
                let backupPath := "revised_tasks_" ++ sanitizeTs ts ++ ".json"
                (some tasks, [.apiPost, .writeFile backupPath (stringify2 (.arr tasks))])
            | none => (none, [.apiPost])

end Enhanced

namespace Original

/-- The original `parsePrdWithGemini`: same structure as the enhanced one but
with the marker-deleting cleanup, no backup write, and no entry validation
(the source marks validation as an optional TODO). -/
def parsePrdWithGemini (apiKey : Option String) (prdFilePath : String)
    (fileContent : Option String) (api : ApiOutcome) :
    Option (List JsValue) × List Eff :=
  if !jsTruthyStr apiKey then (none, [])
  else
    match fileContent with
    | none => (none, [.readFile prdFilePath])
    | some _ =>
        match api with
        | .err => (none, [.readFile prdFilePath, .apiPost])
        | .ok data =>
            match extractText data with
            | none => (none, [.readFile prdFilePath, .apiPost])
            | some text =>
                match jsonParse (cleanOriginal text) with
                | some (.arr tasks) => (some tasks, [.readFile prdFilePath, .apiPost])
                | _ => (none, [.readFile prdFilePath, .apiPost])

/-- The original `expandTaskWithGemini`: strict parse only, `null` on any
parse or shape failure, no backup write. -/
def expandTaskWithGemini (apiKey : Option String) (_parentTask : JsValue)
    (api : ApiOutcome) : Option (List JsValue) × List Eff :=
  if !jsTruthyStr apiKey then (none, [])
  else
    match api with
    | .err => (none, [.apiPost])
    | .ok data =>
        match extractText data with
        | none => (none, [.apiPost])
        | some text =>
            match strictSubtasks (cleanOriginal text) with
            | some subs => (some (subs.map titleVal), [.apiPost])
            | none => (none, [.apiPost])

/-- The original `reviseTasksWithGemini`: accepts any JSON array
(`Array.isArray` is the only check; the source notes "Add more validation if
needed"). -/
def reviseTasksWithGemini (apiKey : Option String) (_userPrompt : String)
    (_pastTasks _futureTasks : List JsValue) (api : ApiOutcome) :
    Option (List JsValue) × List Eff :=
  if !jsTruthyStr apiKey then (none, [])
  else
    match api with
    | .err => (none, [.apiPost])
    | .ok data =>
        match extractText data with
        | none => (none, [.apiPost])
        | some text =>
            match jsonParse (cleanOriginal text) with
            | some (.arr tasks) => (some tasks, [.apiPost])
            | _ => (none, [.apiPost])

end Original

/-- A well-formed Gemini response carrying the given text, for concrete
evaluations. -/
def mkResp (t : String) : JsValue :=
  .obj [("candidates", .arr [.obj [("content",
    .obj [("parts", .arr [.obj [("text", .str t)]])])]])]

namespace Engine

/-!
The task-graph engine (Task Store, Next-Task Selector, Revision Merger) is
not among the provided source files — only the collaborator module is.  The
definitions in this namespace are therefore modelled from the specification.
-/

/-- Modelled from the spec: the task priority enumeration. -/
inductive Priority : Type where
  | high : Priority
  | medium : Priority
  | low : Priority
deriving DecidableEq

/-- Modelled from the spec: the task status enumeration. -/
inductive Status : Type where
  | todo : Status
  | inprogress : Status
  | done : Status
  | blocked : Status
deriving DecidableEq

/-- Modelled from the spec: a top-level Task record (subtasks carry no
scheduling attributes and play no role in selection or revision merging, so
only their count is irrelevant here and they are omitted). -/
structure Task : Type where
  id : Nat
  title : String
  description : String
  priority : Priority
  status : Status
  dependsOn : List Nat
deriving DecidableEq

/-- Modelled from the spec: the Task Store, an ordered sequence of Tasks. -/
structure Store : Type where
  tasks : List Task
deriving DecidableEq

/-- Modelled from the spec: the fixed priority rank `high=3, medium=2, low=1`. -/
def rank : Priority → Nat
  | .high => 3
  | .medium => 2
  | .low => 1

/-- Modelled from the spec: `isSatisfied(task, store)` — every identifier in
the dependency list resolves to a Task whose status is `done` (an identifier
that resolves to no Task is a fault and does not count as satisfied). -/
def isSatisfied (t : Task) (s : Store) : Bool :=
  t.dependsOn.all (fun d => s.tasks.any (fun u => u.id = d ∧ u.status = .done))

/-- The candidate set of the Next-Task Selector: `todo` tasks whose
dependencies are all `done`. -/
def candidates (s : Store) : List Task :=
  s.tasks.filter (fun t => t.status = .todo ∧ isSatisfied t s)

/-- The selection ordering: `a` is scheduled strictly before `b` when it has
higher priority rank, or equal rank and smaller identifier. -/
def better (a b : Task) : Bool :=
  rank b.priority < rank a.priority ∨
    (rank a.priority = rank b.priority ∧ a.id < b.id)

/-- One step of the selection scan: keep the best task seen so far,
preferring the earlier one on (impossible, given unique identifiers) exact
ties. -/
def pickStep (acc : Option Task) (t : Task) : Option Task :=
  match acc with
  | none => some t
  | some b => if better t b then some t else some b

/-- Modelled from the spec: `selectNext(store)` — the first candidate in the
priority-descending, identifier-ascending order, or none.  A pure query: the
store is not modified (the embedding returns only the selected task). -/
def selectNext (s : Store) : Option Task :=
  (candidates s).foldl pickStep none

/-- Modelled from the spec: the `past` segment of a revision — tasks with
identifier below `fromId`. -/
def pastOf (s : Store) (fromId : Nat) : List Task :=
  s.tasks.filter (fun t => t.id < fromId)

/-- The identifiers a proposed future task may depend on: tasks of the past
segment and tasks of the proposal itself. -/
def allowedIds (s : Store) (fromId : Nat) (proposed : List Task) : List Nat :=
  (pastOf s fromId).map Task.id ++ proposed.map Task.id

/-- Modelled from the spec: the complete list of violated references of a
proposal — every pair of a proposing task's identifier and a dependency
identifier that resolves neither into the past segment nor into the proposal. -/
def violations (s : Store) (fromId : Nat) (proposed : List Task) : List (Nat × Nat) :=
  proposed.flatMap (fun p =>
    (p.dependsOn.filter (fun d => !(allowedIds s fromId proposed).contains d)).map
      (fun d => (p.id, d)))

/-- Modelled from the spec: `mergeRevision(store, fromId, proposedFutureTasks)`
— validate every dependency reference of the proposal; on any violation
return an error listing all of them (leaving the store to the caller
untouched), otherwise replace the future segment wholesale. -/
def mergeRevision (s : Store) (fromId : Nat) (proposed : List Task) :
    Except (List (Nat × Nat)) Store :=
  match violations s fromId proposed with
  | [] => .ok ⟨pastOf s fromId ++ proposed⟩
  | v :: vs => .error (v :: vs)

end Engine

/-- The task shape the spec's collaborator interface promises for generated
tasks: entries of the form `\x7btitle, description, priority, dependsOn\x7d`
(stated from the spec, for comparison with what the code actually checks). -/
def specTaskShape : JsValue → Bool
  | .obj fs =>
      (lookupField fs "title").isSome && (lookupField fs "description").isSome &&
        (lookupField fs "priority").isSome && (lookupField fs "dependsOn").isSome
  | _ => false

/-- The file writes contained in an effect trace. -/
def writesOf (effs : List Eff) : List Eff :=
  effs.filter (fun e =>
    match e with
    | .writeFile _ _ => true
    | _ => false)

/-- The unvalidated array acceptance of the PRD parse and the original
revision parse: a parsed JSON array is returned as-is, anything else is
`null`. -/
def arrOrNone (o : Option JsValue) : Option (List JsValue) :=
  match o with
  | some (.arr xs) => some xs
  | _ => none

/-! ## Theorems -/

/-- With a configured key, a readable file and a structurally expected
response, the enhanced PRD parse returns exactly the parsed JSON array,
whatever its entries are. -/
theorem enhanced_parse_eq (k : Option String) (p fc : String) (data : JsValue)
    (text ts : String) (hk : jsTruthyStr k = true) (hex : extractText data = some text) :
    (Enhanced.parsePrdWithGemini k p (some fc) (.ok data) ts).1 =
      arrOrNone (jsonParse (cleanEnhanced text)) := by
  cases hj : jsonParse (cleanEnhanced text) with
  | none => simp [Enhanced.parsePrdWithGemini, arrOrNone, hk, hex, hj]
  | some v => cases v <;> simp [Enhanced.parsePrdWithGemini, arrOrNone, hk, hex, hj]

/-- Same as `enhanced_parse_eq` for the original PRD parse. -/
theorem original_parse_eq (k : Option String) (p fc : String) (data : JsValue)
    (text : String) (hk : jsTruthyStr k = true) (hex : extractText data = some text) :
    (Original.parsePrdWithGemini k p (some fc) (.ok data)).1 =
      arrOrNone (jsonParse (cleanOriginal text)) := by
  cases hj : jsonParse (cleanOriginal text) with
  | none => simp [Original.parsePrdWithGemini, arrOrNone, hk, hex, hj]
  | some v => cases v <;> simp [Original.parsePrdWithGemini, arrOrNone, hk, hex, hj]

/-- The enhanced revision accepts exactly what its strict validation accepts. -/
theorem enhanced_revise_eq (k : Option String) (up : String) (past fut : List JsValue)
    (data : JsValue) (text ts : String)
    (hk : jsTruthyStr k = true) (hex : extractText data = some text) :
    (Enhanced.reviseTasksWithGemini k up past fut (.ok data) ts).1 =
      strictRevTasks (cleanEnhanced text) := by
  cases hj : strictRevTasks (cleanEnhanced text) <;>
    simp [Enhanced.reviseTasksWithGemini, hk, hex, hj]

/-- The original revision accepts any parsed JSON array. -/
theorem original_revise_eq (k : Option String) (up : String) (past fut : List JsValue)
    (data : JsValue) (text : String)
    (hk : jsTruthyStr k = true) (hex : extractText data = some text) :
    (Original.reviseTasksWithGemini k up past fut (.ok data)).1 =
      arrOrNone (jsonParse (cleanOriginal text)) := by
  cases hj : jsonParse (cleanOriginal text) with
  | none => simp [Original.reviseTasksWithGemini, arrOrNone, hk, hex, hj]
  | some v => cases v <;> simp [Original.reviseTasksWithGemini, arrOrNone, hk, hex, hj]

/-- The enhanced expansion: strict parse first, then the line-splitting
fallback. -/
theorem enhanced_expand_eq (k : Option String) (pt data : JsValue) (text ts : String)
    (hk : jsTruthyStr k = true) (hex : extractText data = some text) :
    (Enhanced.expandTaskWithGemini k pt (.ok data) ts).1 =
      (match strictSubtasks (cleanEnhanced text) with
       | some subs => some (subs.map titleVal)
       | none =>
           if (fallbackLines (cleanEnhanced text)).isEmpty then none
           else some ((fallbackLines (cleanEnhanced text)).map .str)) := by
  cases hj : strictSubtasks (cleanEnhanced text) with
  | none =>
      cases hl : (fallbackLines (cleanEnhanced text)).isEmpty <;>
        simp [Enhanced.expandTaskWithGemini, hk, hex, hj, hl]
  | some subs => simp [Enhanced.expandTaskWithGemini, hk, hex, hj]

/-- The original expansion: strict parse only. -/
theorem original_expand_eq (k : Option String) (pt data : JsValue) (text : String)
    (hk : jsTruthyStr k = true) (hex : extractText data = some text) :
    (Original.expandTaskWithGemini k pt (.ok data)).1 =
      (strictSubtasks (cleanOriginal text)).map (List.map titleVal) := by
  cases hj : strictSubtasks (cleanOriginal text) <;>
    simp [Original.expandTaskWithGemini, hk, hex, hj]

/-- C2 counterexample: the claim that `parsePrdWithGemini` accepts a response
only when every entry carries the promised
`\x7btitle, description, priority, dependsOn\x7d` shape is false — a response
whose only entry is the empty object is accepted and returned as-is. -/
theorem C2_counterexample :
    (Enhanced.parsePrdWithGemini (some "key") "prd.md" (some "doc")
      (.ok (mkResp "[\x7b\x7d]")) "T").1 = some [.obj []] ∧
    specTaskShape (.obj []) = false :=
  ⟨rfl, rfl⟩

/-- C2 (amended): `parsePrdWithGemini` — in both versions — validates only
that the cleaned response text parses as a JSON array; it performs no
per-entry shape validation (the source marks it as an optional TODO), so it
returns any parsed array as-is and fails exactly on non-array or unparseable
responses. -/
theorem C2_parse_array_only (k : Option String) (p fc : String) (data : JsValue)
    (text ts : String) (hk : jsTruthyStr k = true) (hex : extractText data = some text) :
    (∀ xs, jsonParse (cleanEnhanced text) = some (.arr xs) →
       (Enhanced.parsePrdWithGemini k p (some fc) (.ok data) ts).1 = some xs) ∧
    ((∀ xs, jsonParse (cleanEnhanced text) ≠ some (.arr xs)) →
       (Enhanced.parsePrdWithGemini k p (some fc) (.ok data) ts).1 = none) ∧
    (∀ xs, jsonParse (cleanOriginal text) = some (.arr xs) →
       (Original.parsePrdWithGemini k p (some fc) (.ok data)).1 = some xs) ∧
    ((∀ xs, jsonParse (cleanOriginal text) ≠ some (.arr xs)) →
       (Original.parsePrdWithGemini k p (some fc) (.ok data)).1 = none) := by
  have he := enhanced_parse_eq k p fc data text ts hk hex
  have ho := original_parse_eq k p fc data text hk hex
  refine ⟨fun xs h => ?_, fun h => ?_, fun xs h => ?_, fun h => ?_⟩
  · rw [he, h]; rfl
  · rw [he]
    rcases hj : jsonParse (cleanEnhanced text) with _ | v
    · rfl
    · cases v <;> first | rfl | exact absurd hj (h _)
  · rw [ho, h]; rfl
  · rw [ho]
    rcases hj : jsonParse (cleanOriginal text) with _ | v
    · rfl
    · cases v <;> first | rfl | exact absurd hj (h _)

/-- Witness for C2 (amended) at a concrete, well-formed array response. -/
theorem C2_parse_array_only_witness :
    (Enhanced.parsePrdWithGemini (some "key") "prd.md" (some "doc")
      (.ok (mkResp "[\"x\"]")) "T").1 = some [.str "x"] :=
  (C2_parse_array_only (some "key") "prd.md" "doc" (mkResp "[\"x\"]") "[\"x\"]" "T"
    rfl rfl).1 [.str "x"] rfl

/-- C3 counterexample: the claim that `reviseTasksWithGemini` accepts a
response only when every entry carries an identifier and a string title is
false for the original version, which accepts a response whose only entry is
the empty object. -/
theorem C3_counterexample :
    (Original.reviseTasksWithGemini (some "key") "p" [] []
      (.ok (mkResp "[\x7b\x7d]"))).1 = some [.obj []] ∧
    validRevEntry (.obj []) = false :=
  ⟨rfl, rfl⟩

/-- C3 (amended): the enhanced `reviseTasksWithGemini` accepts a response
exactly when it parses as a JSON array in which every entry is an object with
a present `id` and a string `title`, and returns `null` whenever any entry
fails that check; the original version accepts any parsed JSON array with no
per-entry validation. -/
theorem C3_revise_validation (k : Option String) (up : String) (past fut : List JsValue)
    (data : JsValue) (text ts : String)
    (hk : jsTruthyStr k = true) (hex : extractText data = some text) :
    (∀ xs, jsonParse (cleanEnhanced text) = some (.arr xs) →
       ((xs.all validRevEntry = true →
           (Enhanced.reviseTasksWithGemini k up past fut (.ok data) ts).1 = some xs) ∧
        ((∃ x ∈ xs, validRevEntry x = false) →
           (Enhanced.reviseTasksWithGemini k up past fut (.ok data) ts).1 = none))) ∧
    ((∀ xs, jsonParse (cleanEnhanced text) ≠ some (.arr xs)) →
       (Enhanced.reviseTasksWithGemini k up past fut (.ok data) ts).1 = none) ∧
    (∀ xs, jsonParse (cleanOriginal text) = some (.arr xs) →
       (Original.reviseTasksWithGemini k up past fut (.ok data)).1 = some xs) := by
  have he := enhanced_revise_eq k up past fut data text ts hk hex
  have ho := original_revise_eq k up past fut data text hk hex
  refine ⟨fun xs h => ⟨fun hall => ?_, fun hbad => ?_⟩, fun h => ?_, fun xs h => ?_⟩
  · rw [he]; simp [strictRevTasks, h, hall]
  · have hall : xs.all validRevEntry = false := by
      rw [List.all_eq_false]
      obtain ⟨x, hx, hxf⟩ := hbad
      exact ⟨x, hx, by simp [hxf]⟩
    rw [he]; simp [strictRevTasks, h, hall]
  · rw [he]
    unfold strictRevTasks
    rcases hj : jsonParse (cleanEnhanced text) with _ | v
    · rfl
    · cases v <;> first | rfl | exact absurd hj (h _)
  · rw [ho, h]; rfl

/-- Witness for C3 (amended): a valid entry is accepted by the enhanced
version, an entry without `id`/`title` is rejected. -/
theorem C3_revise_validation_witness :
    (Enhanced.reviseTasksWithGemini (some "key") "p" [] []
      (.ok (mkResp "[\x7b\"id\": \"5\", \"title\": \"t\"\x7d]")) "T").1 =
      some [.obj [("id", .str "5"), ("title", .str "t")]] ∧
    (Enhanced.reviseTasksWithGemini (some "key") "p" [] []
      (.ok (mkResp "[\x7b\"title\": \"t\"\x7d]")) "T").1 = none :=
  ⟨((C3_revise_validation (some "key") "p" [] []
      (mkResp "[\x7b\"id\": \"5\", \"title\": \"t\"\x7d]")
      "[\x7b\"id\": \"5\", \"title\": \"t\"\x7d]" "T" rfl rfl).1
      [.obj [("id", .str "5"), ("title", .str "t")]] rfl).1 rfl,
   ((C3_revise_validation (some "key") "p" [] []
      (mkResp "[\x7b\"title\": \"t\"\x7d]") "[\x7b\"title\": \"t\"\x7d]" "T" rfl rfl).1
      [.obj [("title", .str "t")]] rfl).2
      ⟨.obj [("title", .str "t")], by simp, rfl⟩⟩

/-- C10: if `GEMINI_API_KEY` is not configured (absent or empty, hence falsy),
each of the three collaborator functions — in both versions — returns `null`
immediately with an empty effect trace: no file read, no network request, no
write. -/
theorem C10_missing_key_no_io (k : Option String) (hk : jsTruthyStr k = false)
    (p : String) (f : Option String) (a : ApiOutcome) (ts : String)
    (pt : JsValue) (up : String) (past fut : List JsValue) :
    Enhanced.parsePrdWithGemini k p f a ts = (none, []) ∧
    Enhanced.expandTaskWithGemini k pt a ts = (none, []) ∧
    Enhanced.reviseTasksWithGemini k up past fut a ts = (none, []) ∧
    Original.parsePrdWithGemini k p f a = (none, []) ∧
    Original.expandTaskWithGemini k pt a = (none, []) ∧
    Original.reviseTasksWithGemini k up past fut a = (none, []) := by
  simp [Enhanced.parsePrdWithGemini, Enhanced.expandTaskWithGemini,
    Enhanced.reviseTasksWithGemini, Original.parsePrdWithGemini,
    Original.expandTaskWithGemini, Original.reviseTasksWithGemini, hk]

/-- Witness for C10 at a concrete environment with no API key. -/
theorem C10_missing_key_no_io_witness :
    jsTruthyStr none = false ∧
    Enhanced.parsePrdWithGemini none "prd.md" (some "doc") .err "T" = (none, []) ∧
    Original.reviseTasksWithGemini none "p" [] [] (.ok (mkResp "[]")) = (none, []) :=
  ⟨rfl,
    (C10_missing_key_no_io none rfl "prd.md" (some "doc") .err "T" .null "p" [] []).1,
    (C10_missing_key_no_io none rfl "prd.md" (some "doc") (.ok (mkResp "[]")) "T"
      .null "p" [] []).2.2.2.2.2⟩

/-- C4: an expansion response accepted by the strict parse — a JSON array
whose elements are all objects with a truthy `title` — makes
`expandTaskWithGemini` (either version) return exactly the `title` values,
one per element, in the array's order; an array containing an element that is
not an object with a truthy title fails the strict parse. -/
theorem C4_strict_expansion (k : Option String) (pt data : JsValue) (text ts : String)
    (hk : jsTruthyStr k = true) (hex : extractText data = some text) :
    (∀ xs, jsonParse (cleanEnhanced text) = some (.arr xs) →
       xs.all validSubtaskEntry = true →
       (Enhanced.expandTaskWithGemini k pt (.ok data) ts).1 = some (xs.map titleVal)) ∧
    (∀ xs, jsonParse (cleanOriginal text) = some (.arr xs) →
       xs.all validSubtaskEntry = true →
       (Original.expandTaskWithGemini k pt (.ok data)).1 = some (xs.map titleVal)) ∧
    (∀ (c : String) (xs : List JsValue), jsonParse c = some (.arr xs) →
       (∃ x ∈ xs, validSubtaskEntry x = false) → strictSubtasks c = none) := by
  refine ⟨fun xs h hall => ?_, fun xs h hall => ?_, fun c xs h hbad => ?_⟩
  · rw [enhanced_expand_eq k pt data text ts hk hex]
    simp [strictSubtasks, h, hall]
  · rw [original_expand_eq k pt data text hk hex]
    simp [strictSubtasks, h, hall]
  · have hall : xs.all validSubtaskEntry = false := by
      rw [List.all_eq_false]
      obtain ⟨x, hx, hxf⟩ := hbad
      exact ⟨x, hx, by simp [hxf]⟩
    simp [strictSubtasks, h, hall]

/-- Witness for C4: two titled objects are returned as their two titles in
order; an array containing an array element fails the strict parse. -/
theorem C4_strict_expansion_witness :
    (Enhanced.expandTaskWithGemini (some "key") (.obj [("id", .str "1")])
      (.ok (mkResp "[\x7b\"title\": \"a\"\x7d, \x7b\"title\": \"b\"\x7d]")) "T").1 =
      some [.str "a", .str "b"] ∧
    strictSubtasks "[[]]" = none :=
  ⟨by
    have h := (C4_strict_expansion (some "key") (.obj [("id", .str "1")])
      (mkResp "[\x7b\"title\": \"a\"\x7d, \x7b\"title\": \"b\"\x7d]")
      "[\x7b\"title\": \"a\"\x7d, \x7b\"title\": \"b\"\x7d]" "T" rfl rfl).1
      [.obj [("title", .str "a")], .obj [("title", .str "b")]] rfl rfl
    exact h.trans rfl,
   (C4_strict_expansion (some "key") .null (mkResp "x") "x" "T" rfl rfl).2.2
     "[[]]" [.arr []] rfl ⟨.arr [], by simp, rfl⟩⟩

/-- C5: when the strict parse of the enhanced expansion fails, the function
degrades to line splitting: it returns the trimmed, non-empty lines of the
cleaned response text that contain no ``` fence (`fallbackLines`, which is
exactly that filter, in order), unless no such line exists, in which case it
returns `null`. -/
theorem C5_expansion_fallback (k : Option String) (pt data : JsValue) (text ts : String)
    (hk : jsTruthyStr k = true) (hex : extractText data = some text)
    (hstrict : strictSubtasks (cleanEnhanced text) = none) :
    (Enhanced.expandTaskWithGemini k pt (.ok data) ts).1 =
      (if (fallbackLines (cleanEnhanced text)).isEmpty then none
       else some ((fallbackLines (cleanEnhanced text)).map .str)) := by
  rw [enhanced_expand_eq k pt data text ts hk hex, hstrict]

/-- Witness for C5: a prose response yields its trimmed lines; a response
whose cleaned text has no usable line yields `null`. -/
theorem C5_expansion_fallback_witness :
    (Enhanced.expandTaskWithGemini (some "key") .null
      (.ok (mkResp "steps: \n - a\n\n- b")) "T").1 =
      some [.str "steps:", .str "- a", .str "- b"] ∧
    (Enhanced.expandTaskWithGemini (some "key") .null (.ok (mkResp " \n ")) "T").1 =
      none :=
  ⟨(C5_expansion_fallback (some "key") .null (mkResp "steps: \n - a\n\n- b")
      "steps: \n - a\n\n- b" "T" rfl rfl rfl).trans rfl,
   (C5_expansion_fallback (some "key") .null (mkResp " \n ") " \n " "T"
      rfl rfl rfl).trans rfl⟩

/-- C1 counterexample: the claim that all three collaborator functions return
`null` whenever the response text does not parse as a JSON array is false for
the enhanced `expandTaskWithGemini`: on the non-JSON response "hello" it
returns the fallback line list, not `null`. -/
theorem C1_counterexample :
    jsonParse (cleanEnhanced "hello") = none ∧
    (Enhanced.expandTaskWithGemini (some "key") .null (.ok (mkResp "hello")) "T").1 =
      some [.str "hello"] :=
  ⟨rfl, rfl⟩

/-- C1 (amended): no collaborator function ever propagates an exception (every
embedded function is total; each `throw` in the source is caught by a handler
that returns `null` or enters the expansion fallback), and each listed failure
mode yields `null`: missing credential, unreadable input file, transport
error, and unexpected response structure for all six functions, and a
response that does not parse as a JSON array for both parse functions, both
revision functions and the original expansion — while the enhanced expansion
instead degrades to line splitting on that last mode, returning `null` only
when no usable line remains. -/
theorem C1_failure_modes (k : Option String) (p fc : String) (pt : JsValue)
    (up : String) (past fut : List JsValue) (ts : String) (data : JsValue)
    (text : String) :
    (jsTruthyStr k = false → ∀ (f : Option String) (a : ApiOutcome),
       (Enhanced.parsePrdWithGemini k p f a ts).1 = none ∧
       (Enhanced.expandTaskWithGemini k pt a ts).1 = none ∧
       (Enhanced.reviseTasksWithGemini k up past fut a ts).1 = none ∧
       (Original.parsePrdWithGemini k p f a).1 = none ∧
       (Original.expandTaskWithGemini k pt a).1 = none ∧
       (Original.reviseTasksWithGemini k up past fut a).1 = none) ∧
    (jsTruthyStr k = true → ∀ (a : ApiOutcome),
       (Enhanced.parsePrdWithGemini k p none a ts).1 = none ∧
       (Original.parsePrdWithGemini k p none a).1 = none) ∧
    (jsTruthyStr k = true →
       (Enhanced.parsePrdWithGemini k p (some fc) .err ts).1 = none ∧
       (Enhanced.expandTaskWithGemini k pt .err ts).1 = none ∧
       (Enhanced.reviseTasksWithGemini k up past fut .err ts).1 = none ∧
       (Original.parsePrdWithGemini k p (some fc) .err).1 = none ∧
       (Original.expandTaskWithGemini k pt .err).1 = none ∧
       (Original.reviseTasksWithGemini k up past fut .err).1 = none) ∧
    (jsTruthyStr k = true → extractText data = none →
       (Enhanced.parsePrdWithGemini k p (some fc) (.ok data) ts).1 = none ∧
       (Enhanced.expandTaskWithGemini k pt (.ok data) ts).1 = none ∧
       (Enhanced.reviseTasksWithGemini k up past fut (.ok data) ts).1 = none ∧
       (Original.parsePrdWithGemini k p (some fc) (.ok data)).1 = none ∧
       (Original.expandTaskWithGemini k pt (.ok data)).1 = none ∧
       (Original.reviseTasksWithGemini k up past fut (.ok data)).1 = none) ∧
    (jsTruthyStr k = true → extractText data = some text →
       ((∀ xs, jsonParse (cleanEnhanced text) ≠ some (.arr xs)) →
          (Enhanced.parsePrdWithGemini k p (some fc) (.ok data) ts).1 = none ∧
          (Enhanced.reviseTasksWithGemini k up past fut (.ok data) ts).1 = none ∧
          (Enhanced.expandTaskWithGemini k pt (.ok data) ts).1 =
            (if (fallbackLines (cleanEnhanced text)).isEmpty then none
             else some ((fallbackLines (cleanEnhanced text)).map .str))) ∧
       ((∀ xs, jsonParse (cleanOriginal text) ≠ some (.arr xs)) →
          (Original.parsePrdWithGemini k p (some fc) (.ok data)).1 = none ∧
          (Original.expandTaskWithGemini k pt (.ok data)).1 = none ∧
          (Original.reviseTasksWithGemini k up past fut (.ok data)).1 = none)) := by
  refine ⟨fun hk f a => ?_, fun hk a => ?_, fun hk => ?_, fun hk hex => ?_,
    fun hk hex => ⟨fun hne => ?_, fun hne => ?_⟩⟩
  · simp [Enhanced.parsePrdWithGemini, Enhanced.expandTaskWithGemini,
      Enhanced.reviseTasksWithGemini, Original.parsePrdWithGemini,
      Original.expandTaskWithGemini, Original.reviseTasksWithGemini, hk]
  · simp [Enhanced.parsePrdWithGemini, Original.parsePrdWithGemini, hk]
  · simp [Enhanced.parsePrdWithGemini, Enhanced.expandTaskWithGemini,
      Enhanced.reviseTasksWithGemini, Original.parsePrdWithGemini,
      Original.expandTaskWithGemini, Original.reviseTasksWithGemini, hk]
  · simp [Enhanced.parsePrdWithGemini, Enhanced.expandTaskWithGemini,
      Enhanced.reviseTasksWithGemini, Original.parsePrdWithGemini,
      Original.expandTaskWithGemini, Original.reviseTasksWithGemini, hk, hex]
  · have hsub : strictSubtasks (cleanEnhanced text) = none ∧
        strictRevTasks (cleanEnhanced text) = none ∧
        arrOrNone (jsonParse (cleanEnhanced text)) = none := by
      unfold strictSubtasks strictRevTasks arrOrNone
      rcases hj : jsonParse (cleanEnhanced text) with _ | v
      · exact ⟨rfl, rfl, rfl⟩
      · cases v <;> first | exact ⟨rfl, rfl, rfl⟩ | exact absurd hj (hne _)
    refine ⟨?_, ?_, ?_⟩
    · rw [enhanced_parse_eq k p fc data text ts hk hex]; exact hsub.2.2
    · rw [enhanced_revise_eq k up past fut data text ts hk hex]; exact hsub.2.1
    · rw [enhanced_expand_eq k pt data text ts hk hex, hsub.1]
  · have hsub : strictSubtasks (cleanOriginal text) = none ∧
        arrOrNone (jsonParse (cleanOriginal text)) = none := by
      unfold strictSubtasks arrOrNone
      rcases hj : jsonParse (cleanOriginal text) with _ | v
      · exact ⟨rfl, rfl⟩
      · cases v <;> first | exact ⟨rfl, rfl⟩ | exact absurd hj (hne _)
    refine ⟨?_, ?_, ?_⟩
    · rw [original_parse_eq k p fc data text hk hex]; exact hsub.2
    · rw [original_expand_eq k pt data text hk hex, hsub.1]; rfl
    · rw [original_revise_eq k up past fut data text hk hex]; exact hsub.2

/-- Witness for C1 (amended) at concrete failing environments. -/
theorem C1_failure_modes_witness :
    (Enhanced.parsePrdWithGemini (some "key") "p" (some "doc") .err "T").1 = none ∧
    (Original.reviseTasksWithGemini none "u" [] [] .err).1 = none ∧
    (Original.expandTaskWithGemini (some "key") .null (.ok (mkResp "hello"))).1 = none :=
  ⟨((C1_failure_modes (some "key") "p" "doc" .null "u" [] [] "T" .null "x").2.2.1 rfl).1,
   (((C1_failure_modes none "p" "doc" .null "u" [] [] "T" .null "x").1 rfl
      (some "doc") .err).2.2.2.2.2),
   (((C1_failure_modes (some "key") "p" "doc" .null "u" [] [] "T" (mkResp "hello")
      "hello").2.2.2.2 rfl rfl).2 (fun xs h => by
        rw [show jsonParse (cleanOriginal "hello") = none from rfl] at h
        cases h)).2.1⟩

/-- A failed enhanced PRD parse performs no write. -/
theorem enhanced_parse_no_write (k : Option String) (p : String) (f : Option String)
    (a : ApiOutcome) (ts : String) :
    (Enhanced.parsePrdWithGemini k p f a ts).1 = none →
      writesOf (Enhanced.parsePrdWithGemini k p f a ts).2 = [] := by
  unfold Enhanced.parsePrdWithGemini
  cases hk : jsTruthyStr k
  · simp [writesOf]
  · cases f
    · simp [writesOf]
    · cases a with
      | err => simp [writesOf]
      | ok d =>
          cases hex : extractText d with
          | none => simp [writesOf, hex]
          | some t =>
              rcases hj : jsonParse (cleanEnhanced t) with _ | v
              · simp [writesOf, hex, hj]
              · cases v <;> simp [writesOf, hex, hj]

/-- A failed enhanced expansion performs no write. -/
theorem enhanced_expand_no_write (k : Option String) (pt : JsValue)
    (a : ApiOutcome) (ts : String) :
    (Enhanced.expandTaskWithGemini k pt a ts).1 = none →
      writesOf (Enhanced.expandTaskWithGemini k pt a ts).2 = [] := by
  unfold Enhanced.expandTaskWithGemini
  cases hk : jsTruthyStr k
  · simp [writesOf]
  · cases a with
    | err => simp [writesOf]
    | ok d =>
        cases hex : extractText d with
        | none => simp [writesOf, hex]
        | some t =>
            cases hj : strictSubtasks (cleanEnhanced t) with
            | some subs => simp [writesOf, hex, hj]
            | none =>
                cases hl : (fallbackLines (cleanEnhanced t)).isEmpty <;>
                  simp [writesOf, hex, hj, hl]

/-- A failed enhanced revision performs no write. -/
theorem enhanced_revise_no_write (k : Option String) (up : String)
    (past fut : List JsValue) (a : ApiOutcome) (ts : String) :
    (Enhanced.reviseTasksWithGemini k up past fut a ts).1 = none →
      writesOf (Enhanced.reviseTasksWithGemini k up past fut a ts).2 = [] := by
  unfold Enhanced.reviseTasksWithGemini
  cases hk : jsTruthyStr k
  · simp [writesOf]
  · cases a with
    | err => simp [writesOf]
    | ok d =>
        cases hex : extractText d with
        | none => simp [writesOf, hex]
        | some t =>
            cases hj : strictRevTasks (cleanEnhanced t) <;> simp [writesOf, hex, hj]

/-- C9: every successful enhanced parse, expansion or revision writes exactly
one timestamped backup file before returning — containing the
JSON-serialization of the accepted value, or the joined fallback lines in the
expansion fallback — and that is its only write; a failed call writes
nothing.  The persisted task store is never written: the complete effect
traces below contain only the read, the POST, and the single backup write. -/
theorem C9_backup_writes (k : Option String) (p fc : String) (pt : JsValue)
    (up : String) (past fut : List JsValue) (ts : String) (data : JsValue)
    (text : String) (hk : jsTruthyStr k = true) (hex : extractText data = some text) :
    (∀ xs, jsonParse (cleanEnhanced text) = some (.arr xs) →
       Enhanced.parsePrdWithGemini k p (some fc) (.ok data) ts =
         (some xs, [.readFile p, .apiPost,
           .writeFile (p ++ ".tasks." ++ sanitizeTs ts ++ ".json")
             (stringify2 (.arr xs))])) ∧
    (∀ subs, strictSubtasks (cleanEnhanced text) = some subs →
       Enhanced.expandTaskWithGemini k pt (.ok data) ts =
         (some (subs.map titleVal),
           [.apiPost, .writeFile
             ("subtasks_" ++ jsDisplay (jsGet pt "id") ++ "_" ++ sanitizeTs ts ++ ".json")
             (stringify2 (.arr subs))])) ∧
    (strictSubtasks (cleanEnhanced text) = none →
       (fallbackLines (cleanEnhanced text)).isEmpty = false →
       Enhanced.expandTaskWithGemini k pt (.ok data) ts =
         (some ((fallbackLines (cleanEnhanced text)).map .str),
           [.apiPost, .writeFile
             ("subtasks_fallback_" ++ jsDisplay (jsGet pt "id") ++ "_" ++
               sanitizeTs ts ++ ".txt")
             (joinNl (fallbackLines (cleanEnhanced text)))])) ∧
    (∀ xs, strictRevTasks (cleanEnhanced text) = some xs →
       Enhanced.reviseTasksWithGemini k up past fut (.ok data) ts =
         (some xs, [.apiPost,
           .writeFile ("revised_tasks_" ++ sanitizeTs ts ++ ".json")
             (stringify2 (.arr xs))])) ∧
    (∀ (f : Option String) (a : ApiOutcome),
       ((Enhanced.parsePrdWithGemini k p f a ts).1 = none →
          writesOf (Enhanced.parsePrdWithGemini k p f a ts).2 = []) ∧
       ((Enhanced.expandTaskWithGemini k pt a ts).1 = none →
          writesOf (Enhanced.expandTaskWithGemini k pt a ts).2 = []) ∧
       ((Enhanced.reviseTasksWithGemini k up past fut a ts).1 = none →
          writesOf (Enhanced.reviseTasksWithGemini k up past fut a ts).2 = [])) := by
  refine ⟨fun xs h => ?_, fun subs h => ?_, fun h hl => ?_, fun xs h => ?_, fun f a => ?_⟩
  · simp [Enhanced.parsePrdWithGemini, hk, hex, h]
  · simp [Enhanced.expandTaskWithGemini, hk, hex, h]
  · simp [Enhanced.expandTaskWithGemini, hk, hex, h, hl]
  · simp [Enhanced.reviseTasksWithGemini, hk, hex, h]
  · exact ⟨enhanced_parse_no_write k p f a ts,
      enhanced_expand_no_write k pt a ts,
      enhanced_revise_no_write k up past fut a ts⟩

/-- Witness for C9: a concrete successful expansion writes exactly its backup
file with the serialized accepted array; a concrete failed parse writes
nothing. -/
theorem C9_backup_writes_witness :
    Enhanced.expandTaskWithGemini (some "key") (.obj [("id", .str "1")])
      (.ok (mkResp "[\x7b\"title\": \"a\"\x7d]")) "T" =
      (some [.str "a"],
        [.apiPost, .writeFile "subtasks_1_T.json"
          "[\n  \x7b\n    \"title\": \"a\"\n  \x7d\n]"]) ∧
    writesOf (Enhanced.parsePrdWithGemini (some "key") "p" (some "doc") .err "T").2 = [] :=
  ⟨((C9_backup_writes (some "key") "p" "doc" (.obj [("id", .str "1")]) "u" [] [] "T"
      (mkResp "[\x7b\"title\": \"a\"\x7d]") "[\x7b\"title\": \"a\"\x7d]" rfl rfl).2.1
      [.obj [("title", .str "a")]] rfl).trans rfl,
   ((C9_backup_writes (some "key") "p" "doc" (.obj [("id", .str "1")]) "u" [] [] "T"
      (mkResp "[\x7b\"title\": \"a\"\x7d]") "[\x7b\"title\": \"a\"\x7d]" rfl rfl).2.2.2.2
      (some "doc") .err).1 rfl⟩

/-- C7: the spec-modelled revision merge is all-or-nothing: when any proposed
dependency resolves neither into the past segment nor into the proposal, the
result is an error that enumerates exactly the violated references (every
offending `(task id, dependency)` pair, not just the first), and no store is
produced — the caller keeps the unmodified input store; when there is no
violation, the future segment is replaced wholesale. -/
theorem C7_mergeRevision_all_or_nothing (s : Engine.Store) (fromId : Nat)
    (proposed : List Engine.Task) :
    (Engine.violations s fromId proposed = [] →
       Engine.mergeRevision s fromId proposed = .ok ⟨Engine.pastOf s fromId ++ proposed⟩) ∧
    (Engine.violations s fromId proposed ≠ [] →
       Engine.mergeRevision s fromId proposed = .error (Engine.violations s fromId proposed)) ∧
    (∀ pid d, (pid, d) ∈ Engine.violations s fromId proposed ↔
       ∃ t ∈ proposed, t.id = pid ∧ d ∈ t.dependsOn ∧
         d ∉ Engine.allowedIds s fromId proposed) ∧
    (∀ es, Engine.mergeRevision s fromId proposed = .error es →
       es = Engine.violations s fromId proposed ∧ es ≠ []) := by
  refine ⟨fun h => ?_, fun h => ?_, fun pid d => ?_, fun es h => ?_⟩
  · unfold Engine.mergeRevision; rw [h]
  · unfold Engine.mergeRevision
    rcases hv : Engine.violations s fromId proposed with _ | ⟨v, vs⟩
    · exact absurd hv h
    · rfl
  · unfold Engine.violations
    simp only [List.mem_flatMap, List.mem_map, List.mem_filter, Bool.not_eq_true,
      List.contains, List.elem_eq_mem, decide_eq_true_eq, Prod.mk.injEq,
      Bool.not_eq_true']
    constructor
    · rintro ⟨t, ht, d', ⟨hd', hnd⟩, hid, hdd⟩
      subst hid hdd
      exact ⟨t, ht, rfl, hd', by simpa using hnd⟩
    · rintro ⟨t, ht, hid, hd, hnd⟩
      exact ⟨t, ht, d, ⟨hd, by simpa using hnd⟩, hid, rfl⟩
  · unfold Engine.mergeRevision at h
    rcases hv : Engine.violations s fromId proposed with _ | ⟨v, vs⟩
    · rw [hv] at h; cases h
    · rw [hv] at h
      cases h
      exact ⟨rfl, by simp⟩

/-- Witness for C7 at the spec's own scenario: past tasks 1–4, `fromId = 5`,
and a proposed future task 5 depending on the nonexistent 99: the merge fails
with exactly the reference `(5, 99)` and produces no store. -/
theorem C7_mergeRevision_witness :
    Engine.mergeRevision ⟨[⟨1, "a", "", .high, .done, []⟩, ⟨2, "b", "", .medium, .done, []⟩,
        ⟨3, "c", "", .low, .done, []⟩, ⟨4, "d", "", .low, .done, []⟩]⟩ 5
      [⟨5, "e", "", .medium, .todo, [99]⟩] = .error [(5, 99)] :=
  ((C7_mergeRevision_all_or_nothing
      ⟨[⟨1, "a", "", .high, .done, []⟩, ⟨2, "b", "", .medium, .done, []⟩,
        ⟨3, "c", "", .low, .done, []⟩, ⟨4, "d", "", .low, .done, []⟩]⟩ 5
      [⟨5, "e", "", .medium, .todo, [99]⟩]).2.1 (by decide)).trans rfl

/-- The selection order is irreflexive. -/
theorem better_irrefl (a : Engine.Task) : Engine.better a a = false := by
  simp [Engine.better]

/-- The selection order is transitive. -/
theorem better_trans (a b c : Engine.Task) (h1 : Engine.better a b = true)
    (h2 : Engine.better b c = true) : Engine.better a c = true := by
  simp [Engine.better] at h1 h2 ⊢
  omega

/-- The complement of the selection order is transitive. -/
theorem better_negtrans (a b c : Engine.Task) (h1 : Engine.better a b = false)
    (h2 : Engine.better b c = false) : Engine.better a c = false := by
  simp [Engine.better] at h1 h2 ⊢
  omega

/-- Tasks with distinct identifiers are strictly comparable. -/
theorem better_total (a b : Engine.Task) (h : a.id ≠ b.id) :
    Engine.better a b = true ∨ Engine.better b a = true := by
  simp [Engine.better]
  omega

/-- The scan step never discards a current best. -/
theorem pickStep_ne_none (acc : Option Engine.Task) (t : Engine.Task) :
    Engine.pickStep acc t ≠ none := by
  cases acc
  · simp [Engine.pickStep]
  · simp only [Engine.pickStep]
    split <;> simp

/-- The selection scan returns none exactly for an empty scan. -/
theorem pickStep_foldl_none (l : List Engine.Task) (acc : Option Engine.Task) :
    l.foldl Engine.pickStep acc = none ↔ acc = none ∧ l = [] := by
  induction l generalizing acc with
  | nil => simp
  | cons t ts ih =>
      rw [List.foldl_cons, ih]
      simp [pickStep_ne_none]

/-- The selection scan returns an element of the scanned list or the initial
accumulator. -/
theorem pickStep_foldl_mem (l : List Engine.Task) (acc : Option Engine.Task)
    (r : Engine.Task) (h : l.foldl Engine.pickStep acc = some r) :
    r ∈ l ∨ acc = some r := by
  induction l generalizing acc with
  | nil => simp at h; exact Or.inr h
  | cons t ts ih =>
      rw [List.foldl_cons] at h
      rcases ih (Engine.pickStep acc t) h with hm | hm
      · exact Or.inl (List.mem_cons_of_mem t hm)
      · cases acc with
        | none =>
            cases hm
            exact Or.inl (List.mem_cons_self _ _)
        | some b =>
            cases hbt : Engine.better t b with
            | true =>
                simp only [Engine.pickStep, hbt, if_true] at hm
                cases hm
                exact Or.inl (List.mem_cons_self _ _)
            | false =>
                simp only [Engine.pickStep, hbt, Bool.false_eq_true, if_false] at hm
                exact Or.inr hm

/-- No scanned element, and no initial best, beats the scan's result. -/
theorem pickStep_foldl_beats (l : List Engine.Task) (acc : Option Engine.Task)
    (r : Engine.Task) (h : l.foldl Engine.pickStep acc = some r) :
    (∀ u ∈ l, Engine.better u r = false) ∧
      (∀ b, acc = some b → Engine.better b r = false) := by
  induction l generalizing acc with
  | nil =>
      simp at h
      refine ⟨by simp, fun b hb => ?_⟩
      rw [h] at hb
      cases hb
      exact better_irrefl r
  | cons t ts ih =>
      rw [List.foldl_cons] at h
      obtain ⟨ihts, ihacc⟩ := ih (Engine.pickStep acc t) h
      constructor
      · intro u hu
        rcases List.mem_cons.mp hu with rfl | hu
        · cases acc with
          | none => exact ihacc u rfl
          | some b =>
              cases hb : Engine.better u b with
              | true => exact ihacc u (by simp [Engine.pickStep, hb])
              | false =>
                  have hbr := ihacc b (by simp [Engine.pickStep, hb])
                  exact better_negtrans u b r hb hbr
        · exact ihts u hu
      · intro b hb
        subst hb
        cases hbt : Engine.better t b with
        | true =>
            have htr := ihacc t (by simp [Engine.pickStep, hbt])
            cases hbr : Engine.better b r with
            | false => rfl
            | true => exact absurd (better_trans t b r hbt hbr) (by simp [htr])
        | false => exact ihacc b (by simp [Engine.pickStep, hbt])

/-- C6: for every store with unique task identifiers, `selectNext` considers
exactly the `todo` tasks whose dependencies are all `done` (the `candidates`
filter), orders them by priority rank descending (`high=3, medium=2, low=1`)
with identifier ascending as tie-break, and returns the unique candidate that
beats every other candidate — or none exactly when no candidate exists.  The
characterization as an `iff` makes the selection deterministic: any task
satisfying the right-hand side is THE selected one; and the selector is a
pure query, returning only the selected task and touching no store state. -/
theorem C6_selectNext_characterization (s : Engine.Store)
    (hids : (s.tasks.map Engine.Task.id).Nodup) :
    (∀ t, Engine.selectNext s = some t ↔
       (t ∈ Engine.candidates s ∧
         ∀ u ∈ Engine.candidates s, u ≠ t → Engine.better t u = true)) ∧
    (Engine.selectNext s = none ↔ Engine.candidates s = []) := by
  have hnodupc : ((Engine.candidates s).map Engine.Task.id).Nodup :=
    hids.sublist ((List.filter_sublist s.tasks).map Engine.Task.id)
  have key : ∀ r, Engine.selectNext s = some r →
      r ∈ Engine.candidates s ∧
        ∀ u ∈ Engine.candidates s, u ≠ r → Engine.better r u = true := by
    intro r hr
    have hmem : r ∈ Engine.candidates s := by
      rcases pickStep_foldl_mem _ _ _ hr with hm | hm
      · exact hm
      · cases hm
    have hbeats := (pickStep_foldl_beats _ _ _ hr).1
    refine ⟨hmem, fun u hu hne => ?_⟩
    have hid : u.id ≠ r.id := fun he =>
      hne (List.inj_on_of_nodup_map hnodupc hu hmem he)
    rcases better_total u r hid with hb | hb
    · exact absurd hb (by simp [hbeats u hu])
    · exact hb
  constructor
  · intro t
    constructor
    · exact key t
    · rintro ⟨hmem, hbest⟩
      rcases hr : Engine.selectNext s with _ | r
      · have := (pickStep_foldl_none _ _).mp hr
        rw [this.2] at hmem
        cases hmem
      · obtain ⟨hrmem, hrbest⟩ := key r hr
        by_cases hrt : r = t
        · rw [hrt]
        · have h1 := hbest r hrmem hrt
          have h2 := hrbest t hmem (fun he => hrt he.symm)
          have := better_trans r t r h2 h1
          rw [better_irrefl r] at this
          cases this
  · constructor
    · intro h
      exact ((pickStep_foldl_none _ _).mp h).2
    · intro h
      unfold Engine.selectNext
      rw [h]
      rfl

/-- Witness for C6 at the spec's scenario: task 1 `done`/high, task 2
`todo`/medium depending on 1, task 3 `todo`/low with no dependencies — the
selector picks task 2. -/
theorem C6_selectNext_witness :
    Engine.selectNext ⟨[⟨1, "one", "", .high, .done, []⟩,
        ⟨2, "two", "", .medium, .todo, [1]⟩, ⟨3, "three", "", .low, .todo, []⟩]⟩ =
      some ⟨2, "two", "", .medium, .todo, [1]⟩ :=
  ((C6_selectNext_characterization ⟨[⟨1, "one", "", .high, .done, []⟩,
      ⟨2, "two", "", .medium, .todo, [1]⟩, ⟨3, "three", "", .low, .todo, []⟩]⟩
      (by decide)).1 ⟨2, "two", "", .medium, .todo, [1]⟩).mpr (by decide)

/-- The backtick is not the newline. -/
theorem bt_beq_nlc : (bt == nlc) = false := by decide

/-- Scanning an empty input leaves it empty. -/
theorem scanFence_nil (f : Nat) : scanFence f [] = [] := by cases f <;> rfl

/-- `containsSub` is the success of `splitAtSub`. -/
theorem containsSub_false_iff (pat l : List Char) :
    containsSub pat l = false ↔ splitAtSub pat l = none := by
  unfold containsSub
  cases splitAtSub pat l <;> simp

/-- A fence-free character list followed by a newline-and-fence never starts
with a fence: the fence cannot straddle the boundary because its characters
are all backticks and the boundary starts with a newline. -/
theorem fence_not_prefix_append (l : List Char)
    (h : splitAtSub fenceM l = none) :
    fenceM.isPrefixOf (l ++ nlc :: fenceM) = false := by
  match l with
  | [] => decide
  | [a] =>
      show ([bt, bt, bt].isPrefixOf (a :: nlc :: fenceM)) = false
      simp [List.isPrefixOf, bt_beq_nlc]
  | [a, b] =>
      show ([bt, bt, bt].isPrefixOf (a :: b :: nlc :: fenceM)) = false
      simp [List.isPrefixOf, bt_beq_nlc]
  | a :: b :: c :: rest =>
      have hp : fenceM.isPrefixOf (a :: b :: c :: rest) = false := by
        by_cases hp : fenceM.isPrefixOf (a :: b :: c :: rest) = true
        · rw [splitAtSub, if_pos hp] at h
          cases h
        · exact Bool.not_eq_true _ |>.mp hp
      show ([bt, bt, bt].isPrefixOf (a :: b :: c :: (rest ++ nlc :: fenceM))) = false
      simp only [fenceM, List.isPrefixOf, Bool.and_eq_false_iff] at hp ⊢
      simpa using hp

/-- Prepending a newline cannot create a fence occurrence. -/
theorem splitAtSub_fence_cons_nlc (l : List Char)
    (h : splitAtSub fenceM l = none) :
    splitAtSub fenceM (nlc :: l) = none := by
  have hp : fenceM.isPrefixOf (nlc :: l) = false := by
    show ([bt, bt, bt].isPrefixOf (nlc :: l)) = false
    simp [List.isPrefixOf, bt_beq_nlc]
  rw [splitAtSub, hp]
  simp [h]

/-- In a fence-free list followed by "\n```", the first occurrence of "\n```"
is exactly at the end. -/
theorem splitAtSub_append_fence (l : List Char)
    (h : splitAtSub fenceM l = none) :
    splitAtSub (nlc :: fenceM) (l ++ nlc :: fenceM) = some (l, []) := by
  induction l with
  | nil => rfl
  | cons c cs ih =>
      have hc1 : fenceM.isPrefixOf (c :: cs) = false := by
        by_cases hp : fenceM.isPrefixOf (c :: cs) = true
        · rw [splitAtSub, if_pos hp] at h
          cases h
        · exact Bool.not_eq_true _ |>.mp hp
      have hc2 : splitAtSub fenceM cs = none := by
        rw [splitAtSub, hc1] at h
        simp only [Bool.false_eq_true, if_false] at h
        cases hs : splitAtSub fenceM cs
        · rfl
        · rw [hs] at h
          exact Option.noConfusion h
      have hpre : (nlc :: fenceM).isPrefixOf (c :: (cs ++ nlc :: fenceM)) = false := by
        show ((nlc == c) && fenceM.isPrefixOf (cs ++ nlc :: fenceM)) = false
        rw [fence_not_prefix_append cs hc2]
        simp
      rw [List.cons_append, splitAtSub, hpre]
      simp only [Bool.false_eq_true, if_false, ih hc2]
      rfl

/-- A fence-free character list followed by a newline-and-fence contains no
"```json" occurrence: the letters of "json" cannot land on the closing
newline-fence and the backticks cannot straddle the boundary. -/
theorem fenceJson_no_occ (l : List Char)
    (h : splitAtSub fenceM l = none) :
    splitAtSub fenceJson (l ++ nlc :: fenceM) = none := by
  induction l with
  | nil => decide
  | cons c cs ih =>
      have hc1 : fenceM.isPrefixOf (c :: cs) = false := by
        by_cases hp : fenceM.isPrefixOf (c :: cs) = true
        · rw [splitAtSub, if_pos hp] at h
          cases h
        · exact Bool.not_eq_true _ |>.mp hp
      have hc2 : splitAtSub fenceM cs = none := by
        rw [splitAtSub, hc1] at h
        simp only [Bool.false_eq_true, if_false] at h
        cases hs : splitAtSub fenceM cs
        · rfl
        · rw [hs] at h
          exact Option.noConfusion h
      have hpre : fenceJson.isPrefixOf (c :: (cs ++ nlc :: fenceM)) = false := by
        match cs with
        | [] =>
            show (fenceJson.isPrefixOf (c :: nlc :: fenceM)) = false
            simp [List.isPrefixOf, fenceJson, bt_beq_nlc]
        | [a] =>
            show (fenceJson.isPrefixOf (c :: a :: nlc :: fenceM)) = false
            simp [List.isPrefixOf, fenceJson, bt_beq_nlc]
        | [a, b] =>
            show (fenceJson.isPrefixOf (c :: a :: b :: nlc :: fenceM)) = false
            simp [List.isPrefixOf, fenceJson, fenceM]
            intros
            decide
        | a :: b :: c3 :: rest =>
            show (fenceJson.isPrefixOf (c :: a :: b :: c3 :: (rest ++ nlc :: fenceM))) = false
            simp only [fenceJson, fenceM, List.isPrefixOf, Bool.and_eq_false_iff] at hc1 ⊢
            rcases hc1 with h1 | h1 | h1
            · exact Or.inl h1
            · exact Or.inr (Or.inl h1)
            · rcases h1 with h1 | h1
              · exact Or.inr (Or.inr (Or.inl h1))
              · cases h1
      rw [List.cons_append, splitAtSub, hpre]
      simp only [Bool.false_eq_true, if_false, ih hc2]
      rfl

/-- When a pattern does not occur, the global replacement is the identity. -/
theorem replaceSub_no_occ (l : List Char) : ∀ (fuel : Nat) (p : Char) (ps : List Char),
    l.length ≤ fuel → splitAtSub (p :: ps) l = none → replaceSub fuel p ps l = l := by
  induction l with
  | nil => intro fuel p ps _ _; cases fuel <;> rfl
  | cons c cs ih =>
      intro fuel p ps hf h
      obtain ⟨f, rfl⟩ : ∃ f, fuel = f + 1 := by
        cases fuel
        · simp at hf
        · exact ⟨_, rfl⟩
      have hc1 : (p :: ps).isPrefixOf (c :: cs) = false := by
        by_cases hp : (p :: ps).isPrefixOf (c :: cs) = true
        · rw [splitAtSub, if_pos hp] at h
          cases h
        · exact Bool.not_eq_true _ |>.mp hp
      have hc2 : splitAtSub (p :: ps) cs = none := by
        rw [splitAtSub, hc1] at h
        simp only [Bool.false_eq_true, if_false] at h
        cases hs : splitAtSub (p :: ps) cs
        · rfl
        · rw [hs] at h
          exact Option.noConfusion h
      rw [replaceSub, hc1]
      simp only [Bool.false_eq_true, if_false]
      rw [ih f p ps (by simpa using Nat.le_of_succ_le_succ hf) hc2]

/-- Deleting every fence from a fence-free list followed by "\n```" removes
exactly the closing fence. -/
theorem replaceSub_closing_fence (l : List Char) : ∀ (fuel : Nat),
    (l ++ nlc :: fenceM).length ≤ fuel → splitAtSub fenceM l = none →
    replaceSub fuel bt [bt, bt] (l ++ nlc :: fenceM) = l ++ [nlc] := by
  induction l with
  | nil =>
      intro fuel hf _
      simp only [List.nil_append, List.length_cons] at hf
      obtain ⟨f, rfl⟩ : ∃ f, fuel = f + 4 := ⟨fuel - 4, by simp [fenceM] at hf; omega⟩
      show replaceSub (f + 4) bt [bt, bt] (nlc :: bt :: bt :: bt :: []) = [nlc]
      rw [replaceSub]
      rw [show ((bt :: [bt, bt]).isPrefixOf (nlc :: bt :: bt :: bt :: [])) = false by decide]
      simp only [Bool.false_eq_true, if_false]
      rw [replaceSub]
      rw [show ((bt :: [bt, bt]).isPrefixOf (bt :: bt :: bt :: [])) = true by decide]
      simp only [if_true]
      rfl
  | cons c cs ih =>
      intro fuel hf h
      obtain ⟨f, rfl⟩ : ∃ f, fuel = f + 1 := by
        cases fuel
        · simp at hf
        · exact ⟨_, rfl⟩
      have hc2 : splitAtSub fenceM cs = none := by
        rw [splitAtSub] at h
        split at h
        · cases h
        · cases hs : splitAtSub fenceM cs
          · rfl
          · rw [hs] at h
            exact Option.noConfusion h
      have hpre : (bt :: [bt, bt]).isPrefixOf (c :: (cs ++ nlc :: fenceM)) = false := by
        have := fence_not_prefix_append (c :: cs) h
        rw [List.cons_append] at this
        exact this
      rw [List.cons_append, replaceSub, hpre]
      simp only [Bool.false_eq_true, if_false]
      rw [ih f (by simp at hf ⊢; omega) hc2]
      rfl

/-- Trimming is unaffected by newline padding on both sides. -/
theorem charTrim_pad (l : List Char) :
    charTrim (nlc :: l ++ [nlc]) = charTrim l := by
  unfold charTrim
  rw [List.cons_append, List.dropWhile_cons_of_pos (by decide : isWs nlc = true)]
  rw [List.dropWhile_append]
  cases hd : (l.dropWhile isWs).isEmpty
  · simp only [Bool.false_eq_true, if_false]
    rw [List.reverse_append]
    simp only [List.reverse_cons, List.reverse_nil, List.nil_append, List.singleton_append]
    rw [List.dropWhile_cons_of_pos (by decide : isWs nlc = true)]
  · simp only [if_true]
    rw [show (List.dropWhile isWs [nlc]) = [] from by decide]
    rw [List.isEmpty_iff] at hd
    rw [hd]

/-- C8: on a well-formed fenced response `"```json\n<body>\n```"` whose body
contains no ``` fence, the enhanced cleanup (regex replacement of the fenced
block by its captured body) and the original cleanup (global deletion of the
"```json" and "```" markers) agree: both produce the trimmed body, so both
parser versions go on to parse identical JSON. -/
theorem C8_cleanup_agreement (body : String)
    (h : containsSub fenceM body.data = false) :
    cleanEnhanced ("```json\n" ++ body ++ "\n```") = jsTrimStr body ∧
    cleanOriginal ("```json\n" ++ body ++ "\n```") = jsTrimStr body ∧
    jsonParse (cleanEnhanced ("```json\n" ++ body ++ "\n```")) =
      jsonParse (cleanOriginal ("```json\n" ++ body ++ "\n```")) := by
  have hsplit : splitAtSub fenceM body.data = none := (containsSub_false_iff _ _).mp h
  have hsplit2 : splitAtSub fenceM (nlc :: body.data) = none :=
    splitAtSub_fence_cons_nlc body.data hsplit
  have hopen : ("```json\n" : String).data = [bt, bt, bt, 'j', 's', 'o', 'n', nlc] := by
    decide
  have hclose : ("\n```" : String).data = nlc :: fenceM := by decide
  have hL : ("```json\n" ++ body ++ "\n```" : String).data =
      bt :: bt :: bt :: 'j' :: 's' :: 'o' :: 'n' :: nlc ::
        (body.data ++ nlc :: fenceM) := by
    rw [String.data_append, String.data_append, hopen, hclose]
    simp [List.append_assoc]
  have hlen : ("```json\n" ++ body ++ "\n```" : String).data.length =
      body.data.length + 12 := by
    rw [hL]
    simp only [List.length_cons, List.length_append, List.length_nil, fenceM]
  have hmatch : matchFenceAt (bt :: bt :: bt :: 'j' :: 's' :: 'o' :: 'n' :: nlc ::
      (body.data ++ nlc :: fenceM)) = some (body.data, []) := by
    unfold matchFenceAt
    norm_num [List.isPrefixOf, fenceM, List.drop]
    exact splitAtSub_append_fence body.data hsplit
  have hE : cleanEnhanced ("```json\n" ++ body ++ "\n```") = jsTrimStr body := by
    unfold cleanEnhanced
    rw [hlen, hL]
    rw [show body.data.length + 12 = (body.data.length + 11) + 1 from rfl]
    simp only [scanFence, hmatch, scanFence_nil, List.append_nil]
    rfl
  have hA : replaceSub ((body.data.length + 11) + 1) bt
      (bt :: bt :: 'j' :: 's' :: 'o' :: 'n' :: [])
      (bt :: bt :: bt :: 'j' :: 's' :: 'o' :: 'n' :: nlc ::
        (body.data ++ nlc :: fenceM)) =
      nlc :: (body.data ++ nlc :: fenceM) := by
    have hocc : splitAtSub (bt :: (bt :: bt :: 'j' :: 's' :: 'o' :: 'n' :: []))
        (nlc :: (body.data ++ nlc :: fenceM)) = none := by
      have := fenceJson_no_occ (nlc :: body.data) hsplit2
      rw [List.cons_append] at this
      simpa [fenceJson] using this
    simp only [replaceSub]
    norm_num [List.isPrefixOf, List.drop]
    exact replaceSub_no_occ (nlc :: (body.data ++ nlc :: fenceM))
      (body.data.length + 11) bt (bt :: bt :: 'j' :: 's' :: 'o' :: 'n' :: [])
      (by simp only [List.length_cons, List.length_append, List.length_nil, fenceM]; omega) hocc
  have hO : cleanOriginal ("```json\n" ++ body ++ "\n```") = jsTrimStr body := by
    unfold cleanOriginal
    rw [hlen, hL]
    rw [show body.data.length + 12 = (body.data.length + 11) + 1 from rfl]
    rw [hA]
    show String.mk (charTrim (replaceSub (nlc :: (body.data ++ nlc :: fenceM)).length
      bt [bt, bt] (nlc :: (body.data ++ nlc :: fenceM)))) = jsTrimStr body
    rw [show (nlc :: (body.data ++ nlc :: fenceM)) = (nlc :: body.data) ++ nlc :: fenceM
      from by rw [List.cons_append]]
    rw [replaceSub_closing_fence (nlc :: body.data)
      ((nlc :: body.data) ++ nlc :: fenceM).length (Nat.le_refl _) hsplit2]
    rw [charTrim_pad body.data]
    rfl
  exact ⟨hE, hO, by rw [hE, hO]⟩

/-- Witness for C8 at the concrete body "[1, 2]". -/
theorem C8_cleanup_agreement_witness :
    cleanEnhanced "```json\n[1, 2]\n```" = "[1, 2]" ∧
    cleanOriginal "```json\n[1, 2]\n```" = "[1, 2]" :=
  ⟨((C8_cleanup_agreement "[1, 2]" (by decide)).1).trans rfl,
   ((C8_cleanup_agreement "[1, 2]" (by decide)).2.1).trans rfl⟩
